import Mathlib

/-!
Verification of the nntrainer graph-compiler / execution-scheduler specification
against a shallow embedding of the sources.

The embedding covers three source files:
* `nntrainer/graph/network_graph.h` (declarations of the graph engine; the
  corresponding implementation file is not part of the sources, so the engine
  operations are modelled from the specification where noted),
* `nntrainer/layers/layer_normalization_layer.cpp`,
* `nntrainer/opencl/opencl_context_manager.cpp`.

Machine integers are modelled as `Nat`, floating point values as `ℚ` (the
claims settled here are about which symbolic formula each branch computes,
not about rounding), and fallible code as `Except`/`Option`.
-/

set_option maxHeartbeats 1000000

namespace NNTrainer

/-! ## Tensor dimensions (NCHW), as in nntrainer `TensorDim` -/

/-- Tensor dimension in NCHW order. -/
structure TensorDim where
  batch : Nat
  channel : Nat
  height : Nat
  width : Nat
deriving DecidableEq

/-- The default-constructed `TensorDim` (all axes unset). -/
def TensorDim.empty : TensorDim := ⟨0, 0, 0, 0⟩

def TensorDim.getTensorDim (d : TensorDim) (axis : Fin 4) : Nat :=
  if axis.val = 0 then d.batch
  else if axis.val = 1 then d.channel
  else if axis.val = 2 then d.height
  else d.width

def TensorDim.setTensorDim (d : TensorDim) (axis : Fin 4) (v : Nat) : TensorDim :=
  if axis.val = 0 then { d with batch := v }
  else if axis.val = 1 then { d with channel := v }
  else if axis.val = 2 then { d with height := v }
  else { d with width := v }

/-- Copy the dimensions listed in `axes` from `src` onto `base`. -/
def setDims (base : TensorDim) (axes : List (Fin 4)) (src : TensorDim) : TensorDim :=
  axes.foldl (fun d a => d.setTensorDim a (src.getTensorDim a)) base

inductive TensorLifespan
  | ITERATION_LIFESPAN
  | CALC_DERIV_LIFESPAN
  | MAX_LIFESPAN
deriving DecidableEq

inductive Initializer
  | NONE
  | ZEROS
  | ONES
deriving DecidableEq

/-! ## InitLayerContext: the context a layer's finalize works against -/

/-- One `requestWeight` record (dimension, initializer, decay, name, trainable). -/
structure WeightRequest where
  dim : TensorDim
  initializer : Initializer
  decay : ℚ
  name : String
  trainable : Bool
deriving DecidableEq

/-- One `requestTensor` record. -/
structure TensorRequest where
  dim : TensorDim
  name : String
  initializer : Initializer
  trainable : Bool
  lifespan : TensorLifespan
deriving DecidableEq

structure InitLayerContext where
  numInputs : Nat
  inputDims : List TensorDim
  outputDims : List TensorDim
  weightsSpec : List WeightRequest
  tensorsSpec : List TensorRequest
deriving DecidableEq

/-- `InitLayerContext::requestWeight`: append the request, return its index. -/
def InitLayerContext.requestWeight (ctx : InitLayerContext) (w : WeightRequest) :
    Nat × InitLayerContext :=
  (ctx.weightsSpec.length, { ctx with weightsSpec := ctx.weightsSpec ++ [w] })

/-- `InitLayerContext::requestTensor`: append the request, return its index. -/
def InitLayerContext.requestTensor (ctx : InitLayerContext) (t : TensorRequest) :
    Nat × InitLayerContext :=
  (ctx.tensorsSpec.length, { ctx with tensorsSpec := ctx.tensorsSpec ++ [t] })

/-! ## Layer normalization layer -/

/-- The property tuple of `LayerNormalizationLayer` (axes, epsilon, initializers,
decays).  Axes are constrained to the four NCHW axes by the property parser. -/
structure LNProps where
  axesProp : List (Fin 4)
  epsilon : ℚ
  gammaInitializer : Initializer
  betaInitializer : Initializer
  weightDecay : ℚ
  biasDecay : ℚ
deriving DecidableEq

/-- The `wt_idx` array of the layer, one slot per `LNParams` entry. -/
structure WtIdx where
  gamma : Nat
  beta : Nat
  deviation : Nat
  variance : Nat
  inv_std_dev : Nat
  temp_origin_size : Nat
  temp_normalized_size : Nat
deriving DecidableEq

/-- Mutable member state of `LayerNormalizationLayer`. -/
structure LNLayerState where
  normalizeAxes : List (Fin 4)
  remainAxes : List (Fin 4)
  wtIdx : WtIdx
deriving DecidableEq

def insertAxis (a : Fin 4) : List (Fin 4) → List (Fin 4)
  | [] => [a]
  | x :: xs => if a.val ≤ x.val then a :: x :: xs else x :: insertAxis a xs

/-- `std::sort` on the axis list. -/
def sortAxes : List (Fin 4) → List (Fin 4)
  | [] => []
  | x :: xs => insertAxis x (sortAxes xs)

/-- `std::unique` + `erase`: drop adjacent duplicates. -/
def dedupAdjacent : List (Fin 4) → List (Fin 4)
  | [] => []
  | [x] => [x]
  | x :: y :: rest =>
    if x = y then dedupAdjacent (y :: rest) else x :: dedupAdjacent (y :: rest)

def totalAxes : List (Fin 4) := [0, 1, 2, 3]

/-- `LayerNormalizationLayer::finalize`, translated from
`layer_normalization_layer.cpp` lines 47-120.  Exceptions become
`Except.error`. -/
def LayerNormalizationLayer.finalize (props : LNProps) (st : LNLayerState)
    (ctx : InitLayerContext) : Except String (LNLayerState × InitLayerContext) :=
  if ctx.numInputs ≠ 1 then
    Except.error "Only one input is allowed for layer normalization layer"
  else
    let input_dim := ctx.inputDims.getD 0 TensorDim.empty
    let ctx1 := { ctx with outputDims := [input_dim] }
    if props.axesProp = [] then
      Except.error "[Layer normalization]axis property is empty"
    else
      let normalize_axes := dedupAdjacent (sortAxes (st.normalizeAxes ++ props.axesProp))
      let normalize_dim := setDims TensorDim.empty normalize_axes input_dim
      let p1 := ctx1.requestWeight
        ⟨normalize_dim, props.gammaInitializer, props.weightDecay, "gamma", true⟩
      let p2 := p1.2.requestWeight
        ⟨normalize_dim, props.betaInitializer, props.biasDecay, "beta", true⟩
      let remain_axes := st.remainAxes ++
        totalAxes.filter (fun a => decide (a ∉ normalize_axes))
      let remain_dim := setDims TensorDim.empty remain_axes input_dim
      let q1 := p2.2.requestTensor
        ⟨input_dim, "deviation", .NONE, false, .ITERATION_LIFESPAN⟩
      let q2 := q1.2.requestTensor
        ⟨remain_dim, "variance", .NONE, false, .ITERATION_LIFESPAN⟩
      let q3 := q2.2.requestTensor
        ⟨remain_dim, "inv_std_dev", .NONE, false, .ITERATION_LIFESPAN⟩
      let q4 := q3.2.requestTensor
        ⟨input_dim, "temp_origin_size", .NONE, false, .CALC_DERIV_LIFESPAN⟩
      let q5 := q4.2.requestTensor
        ⟨remain_dim, "temp_normalized_size", .NONE, false, .CALC_DERIV_LIFESPAN⟩
      Except.ok
        ({ normalizeAxes := normalize_axes, remainAxes := remain_axes,
           wtIdx := ⟨p1.1, p2.1, q1.1, q2.1, q3.1, q4.1, q5.1⟩ }, q5.2)

/-! ## Run-time context and setBatch -/

/-- A managed tensor handle visible through `RunLayerContext`. -/
structure RTensor where
  name : String
  dim : TensorDim
deriving DecidableEq

structure RunLayerContext where
  inputs : List RTensor
  outputs : List RTensor
  weights : List RTensor
  tensors : List RTensor
deriving DecidableEq

/-- Set the batch dimension of the idx-th tensor of a list. -/
def setBatchAt : List RTensor → Nat → Nat → List RTensor
  | [], _, _ => []
  | t :: ts, 0, b => { t with dim := { t.dim with batch := b } } :: ts
  | t :: ts, Nat.succ n, b => t :: setBatchAt ts n b

/-- `RunLayerContext::updateTensor`: update the batch dimension of the idx-th
requested tensor (weights, inputs and outputs are untouched). -/
def RunLayerContext.updateTensor (ctx : RunLayerContext) (idx : Nat) (batch : Nat) :
    RunLayerContext :=
  { ctx with tensors := setBatchAt ctx.tensors idx batch }

/-- `LayerNormalizationLayer::setBatch`, translated from
`layer_normalization_layer.cpp` lines 290-297. -/
def LayerNormalizationLayer.setBatch (wt : WtIdx) (ctx : RunLayerContext)
    (batch : Nat) : RunLayerContext :=
  ((((ctx.updateTensor wt.deviation batch).updateTensor
      wt.variance batch).updateTensor
      wt.inv_std_dev batch).updateTensor
      wt.temp_origin_size batch).updateTensor wt.temp_normalized_size batch

/-! ## The epsilon sign discrepancy in incremental_forwarding (C7) -/

/-- Sum of squared deviations along the normalization axis
(`sum += powf(data[j], 2.0f)` in the fp16 loop, `deviation.pow(2.0)` followed
by `average` in the other paths). -/
def sumSquares (dev : List ℚ) : ℚ := (dev.map (fun d => d * d)).sum

/-- fp16 fast path of `incremental_forwarding` (lines 213-224): the argument
handed to the inverse square root is `sum / axis_dim - epsilon`. -/
def fp16InvStdDevArg (dev : List ℚ) (eps : ℚ) : ℚ :=
  sumSquares dev / (dev.length : ℚ) - eps

/-- `forwarding` (lines 148-155) and the non-fp16 branch of
`incremental_forwarding` (lines 208-212): variance plus epsilon before
`pow(-0.5)`. -/
def stdInvStdDevArg (dev : List ℚ) (eps : ℚ) : ℚ :=
  sumSquares dev / (dev.length : ℚ) + eps

/-! ## OpenCL context manager (C8) -/

/-- Observable state of `ContextManager`: whether `context_` is non-null and
the OpenCL reference count of the context object. -/
structure CMState where
  hasContext : Bool
  refCount : Nat
deriving DecidableEq

/-- The state of the lazily-created singleton before any call. -/
def initialCMState : CMState := ⟨false, 0⟩

/-- `clRetainContext`: increments the context reference count. -/
def clRetainContext (s : CMState) : CMState := { s with refCount := s.refCount + 1 }

/-- `clReleaseContext`: decrements the context reference count. -/
def clReleaseContext (s : CMState) : CMState := { s with refCount := s.refCount - 1 }

/-- `ContextManager::CreateDefaultOpenCLHandles` (platform, device, context
creation): succeeds iff a platform with a GPU device is available; a freshly
created context carries one reference. -/
def CreateDefaultOpenCLHandles (deviceAvailable : Bool) (s : CMState) :
    Bool × CMState :=
  if deviceAvailable then (true, { hasContext := true, refCount := 1 }) else (false, s)

/-- `ContextManager::GetContext`, translated from
`opencl_context_manager.cpp` lines 40-69.  The returned Bool is whether the
returned `cl_context` is non-null. -/
def ContextManager.GetContext (deviceAvailable : Bool) (s : CMState) :
    CMState × Bool :=
  if s.hasContext then (clRetainContext s, true)
  else
    match CreateDefaultOpenCLHandles deviceAvailable s with
    | (true, s2) => (clRetainContext s2, true)
    | (false, _) => ({ hasContext := false, refCount := 0 }, false)

/-- `ContextManager::ReleaseContext`, translated from
`opencl_context_manager.cpp` lines 75-80. -/
def ContextManager.ReleaseContext (s : CMState) : CMState :=
  if s.hasContext then clReleaseContext s else s

inductive DeviceError
  | DeviceUnavailableError
deriving DecidableEq

/-- Modelled from the spec: the graph engine consumes a ready compute context
or fails with a `DeviceUnavailableError` surfaced to the caller of
`compile`/`initialize` (the `compile`/`initialize` bodies are not part of the
sources; only `network_graph.h` is). -/
def acquireComputeContext (deviceAvailable : Bool) (s : CMState) :
    Except DeviceError CMState :=
  match ContextManager.GetContext deviceAvailable s with
  | (s2, true) => Except.ok s2
  | (_, false) => Except.error DeviceError.DeviceUnavailableError

/-! ## Gradient application on last access (C4) -/

/-- A weight of the compiled graph together with its precomputed
`last_access` execution order and the (temporally ordered) execution orders
at which the graph accesses its gradient. -/
structure MWeight where
  lastAccess : Nat
  accessOrders : List Nat
deriving DecidableEq

/-- Modelled from the spec: `applyGradientsOnLastAccess` (declared at
`network_graph.h` lines 149-157, body not in the sources) applies the update
iff the current access index equals the weight's precomputed `last_access`
order, and is a no-op otherwise.  The Nat argument counts applications. -/
def applyGradientsOnLastAccess (w : MWeight) (current : Nat) (appliedCount : Nat) :
    Nat :=
  if current = w.lastAccess then appliedCount + 1 else appliedCount

/-- Number of gradient applications after invoking
`applyGradientsOnLastAccess` at the first `k` accesses of the weight. -/
def runGradientAccesses (w : MWeight) (k : Nat) : Nat :=
  (w.accessOrders.take k).foldl (fun acc o => applyGradientsOnLastAccess w o acc) 0

/-- Number of gradient applications after a full iteration over all accesses. -/
def runAllGradientAccesses (w : MWeight) : Nat :=
  runGradientAccesses w w.accessOrders.length

/-! ## In-place eligibility (C6) -/

inductive InPlace
  | NONE
  | RESTRICTING
  | NON_RESTRICTING
deriving DecidableEq

/-- A node as seen by the in-place analysis: name, named input connections,
whether its operation is a pure elementwise/shape-preserving transform, and
whether its in-place support is of the restricted flavour. -/
structure PlanNode where
  name : Nat
  inputs : List Nat
  elementwise : Bool
  restrictedKind : Bool
deriving DecidableEq

structure PlanGraph where
  nodes : List PlanNode
deriving DecidableEq

/-- Output consumers of the node called `name` (derived from the declared
input connections, as `setOutputLayers` derives them). -/
def consumersOf (g : PlanGraph) (name : Nat) : List Nat :=
  (g.nodes.filter (fun m => decide (name ∈ m.inputs))).map (fun m => m.name)

/-- Modelled from the spec: `canExecuteInPlace` (declared at
`network_graph.h` lines 510-517, body not in the sources) returns an
in-place-eligible mode only for a pure elementwise/shape-preserving node whose
output consumer count is exactly one and none of whose input buffers is a
fan-out point (a fan-out input may still be read by other consumers after this
node executes). -/
def canExecuteInPlace (g : PlanGraph) (n : PlanNode) : InPlace :=
  if n.elementwise
      && (consumersOf g n.name).length == 1
      && n.inputs.all (fun i => (consumersOf g i).length == 1) then
    if n.restrictedKind then InPlace.RESTRICTING else InPlace.NON_RESTRICTING
  else InPlace.NONE

/-- Modelled from the spec: `inPlaceOptimize` (declared at `network_graph.h`
lines 505-508, body not in the sources) aliases the output storage of every
in-place-eligible node onto its input storage; every other node keeps
independent output storage.  The Bool records whether the node's output was
aliased. -/
def inPlaceOptimize (g : PlanGraph) : List (Nat × Bool) :=
  g.nodes.map (fun n => (n.name, decide (canExecuteInPlace g n ≠ InPlace.NONE)))

/-! ## Memory packing (C3) -/

/-- A managed-tensor handle as the packer sees it: an execution-order access
range and a byte footprint. -/
structure TensorReq where
  id : Nat
  firstAccess : Nat
  lastAccess : Nat
  bytes : Nat
deriving DecidableEq

/-- Two access-order ranges intersect. -/
def rangesOverlap (a b : TensorReq) : Bool :=
  decide (a.firstAccess ≤ b.lastAccess) && decide (b.firstAccess ≤ a.lastAccess)

/-- One storage region of the packing with its byte capacity and the handles
packed into it. -/
structure MemRegion where
  capacity : Nat
  packed : List TensorReq
deriving DecidableEq

/-- A handle may go into a region iff its byte footprint fits the region and
its access range is disjoint from every handle already packed there. -/
def fitsRegion (r : MemRegion) (t : TensorReq) : Bool :=
  decide (t.bytes ≤ r.capacity) && r.packed.all (fun p => !rangesOverlap p t)

/-- Greedy placement: first compatible region, else open a new region sized to
the handle. -/
def placeTensor : List MemRegion → TensorReq → List MemRegion
  | [], t => [⟨t.bytes, [t]⟩]
  | r :: rest, t =>
    if fitsRegion r t then { r with packed := t :: r.packed } :: rest
    else r :: placeTensor rest t

/-- The greedy packing order: ascending `first_access`, ties by descending
size. -/
def reqBefore (a b : TensorReq) : Bool :=
  decide (a.firstAccess < b.firstAccess) ||
    (decide (a.firstAccess = b.firstAccess) && decide (b.bytes ≤ a.bytes))

def insertReq (t : TensorReq) : List TensorReq → List TensorReq
  | [] => [t]
  | x :: xs => if reqBefore t x then t :: x :: xs else x :: insertReq t xs

def sortReqs : List TensorReq → List TensorReq
  | [] => []
  | x :: xs => insertReq x (sortReqs xs)

/-- Modelled from the spec: the packing computed by `allocateTensors`
(declared at `network_graph.h` lines 276-281, body and the Manager's packer
not in the sources): handles in greedy order, each placed into the first
region whose packed handles all have disjoint ranges and whose capacity fits. -/
def allocateTensors (reqs : List TensorReq) : List MemRegion :=
  (sortReqs reqs).foldl placeTensor []

/-! ## Graph nodes, topological sort, compile (C1, C5) -/

/-- A layer node as the graph container stores it: unique name and named
input connections. -/
structure GNode where
  name : Nat
  inputs : List Nat
deriving DecidableEq

def namesOf (nodes : List GNode) : List Nat := nodes.map (fun n => n.name)

/-- Dependency edge: `u`'s output feeds `v`'s input. -/
def edgeIn (nodes : List GNode) (u v : GNode) : Prop :=
  u ∈ nodes ∧ v ∈ nodes ∧ u.name ∈ v.inputs

/-- The node set contains a dependency cycle. -/
def hasCycle (nodes : List GNode) : Prop :=
  ∃ u, Relation.TransGen (edgeIn nodes) u u

/-- All dependencies of `n` have already been emitted. -/
def readyIn (done : List Nat) (n : GNode) : Bool :=
  n.inputs.all (fun i => decide (i ∈ done))

/-- First node (in stored insertion order) all of whose dependencies are done:
this is the stable tie-break of the sort. -/
def firstReady (done : List Nat) : List GNode → Option GNode
  | [] => none
  | n :: rest => if readyIn done n then some n else firstReady done rest

/-- Modelled from the spec: the topological sort of the graph container
(declared as `topologicalSortUtil` at `network_graph.h` lines 383-390, body
not in the sources): repeatedly emit the insertion-earliest node whose
dependencies are all emitted; fail (CycleError) when none exists. -/
def topoSortAux (done : List Nat) (remaining : List GNode) :
    Nat → Option (List GNode)
  | 0 => if remaining.isEmpty then some [] else none
  | Nat.succ fuel =>
    if remaining.isEmpty then some []
    else
      match firstReady done remaining with
      | none => none
      | some p => (topoSortAux (p.name :: done) (remaining.erase p) fuel).map
          (fun l => p :: l)

def topologicalSort (nodes : List GNode) : Option (List GNode) :=
  topoSortAux [] nodes nodes.length

/-- `L` is a linear extension of the dependency relation: every node appears
only after all of its dependencies (`done` seeds the already-emitted names). -/
def validOrderB (done : List Nat) : List GNode → Bool
  | [] => true
  | n :: rest => readyIn done n && validOrderB (n.name :: done) rest

/-- Position of (the node named like) `u` in `l`, by key. -/
def posInBy {α : Type} (key : α → Nat) : List α → α → Nat
  | [], _ => 0
  | n :: rest, u => if key u = key n then 0 else posInBy key rest u + 1

def posIn (l : List GNode) (u : GNode) : Nat := posInBy (fun n => n.name) l u

inductive CompileError
  | InvalidParameterError
  | CycleError
deriving DecidableEq

/-- `isCompilable` / `checkCompiledGraph` style validation: nonempty node
set, unique names, no dangling connection references. -/
def isCompilable (nodes : List GNode) : Bool :=
  !nodes.isEmpty && decide (namesOf nodes).Nodup &&
    nodes.all (fun n => n.inputs.all (fun i => decide (i ∈ namesOf nodes)))

/-- A name not used by any stored node. -/
def freshName (nodes : List GNode) : Nat := (namesOf nodes).foldr max 0 + 1

/-- Nodes whose output no stored node consumes. -/
def terminalNames (nodes : List GNode) : List Nat :=
  namesOf (nodes.filter (fun n => nodes.all (fun m => decide (n.name ∉ m.inputs))))

/-- Modelled from the spec: `addLossLayer` inserts an implicit loss node
consuming the terminal node(s) when a loss type is given. -/
def addLossLayer (lossType : String) (nodes : List GNode) : List GNode :=
  if lossType = "" then nodes
  else nodes ++ [⟨freshName nodes, terminalNames nodes⟩]

/-- Observable state of a `NetworkGraph`. -/
structure GraphState where
  nodes : List GNode
  sortedNodes : List GNode
  ordersAssigned : Bool
  compiledFlag : Bool
deriving DecidableEq

/-- The state addLayer calls leave behind before any compile. -/
def GraphState.uninitialized (s : GraphState) : Prop :=
  s.sortedNodes = [] ∧ s.ordersAssigned = false ∧ s.compiledFlag = false

/-- Modelled from the spec: `NetworkGraph::compile` (declared at
`network_graph.h` lines 56-61, body not in the sources): validate, realize
the implicit loss node, topologically sort, assign execution orders and set
the compiled flag; commit the new state only when every step succeeded. -/
def NetworkGraph.compile (lossType : String) (s : GraphState) :
    Option CompileError × GraphState :=
  if !isCompilable s.nodes then (some CompileError.InvalidParameterError, s)
  else
    match topologicalSort (addLossLayer lossType s.nodes) with
    | none => (some CompileError.CycleError, s)
    | some sorted =>
      (none, { nodes := addLossLayer lossType s.nodes, sortedNodes := sorted,
               ordersAssigned := true, compiledFlag := true })

/-! ## Execution orders (C2) -/

/-- A sorted node as the execution-order assignment sees it. -/
structure ENode where
  name : Nat
  needsBackward : Bool
deriving DecidableEq

def eposIn (l : List ENode) (u : ENode) : Nat := posInBy (fun n => n.name) l u

/-- Modelled from the spec: `setExecutionOrder` (declared at
`network_graph.h` lines 486-494, body not in the sources) assigns
`forward_order` as the position in topological order. -/
def forward_order (sorted : List ENode) (n : ENode) : Nat := eposIn sorted n

/-- The traversal between `getBackwardingBeginIter` (= `crbegin`) and
`getBackwardingEndIter` (= `crend`): reverse iteration over the sorted
nodes (`network_graph.h` lines 207-221). -/
def backwardTraversal (sorted : List ENode) : List ENode := sorted.reverse

/-- Modelled from the spec: the backward-order list is the reverse of
topological order restricted to the subset marked backward-necessary. -/
def backwardOrderList (sorted : List ENode) : List ENode :=
  (backwardTraversal sorted).filter (fun n => n.needsBackward)

/-- Modelled from the spec: `backward_order` is the position in the reverse
of topological order over the backward-necessary subset. -/
def backward_order (sorted : List ENode) (n : ENode) : Nat :=
  eposIn (backwardOrderList sorted) n

/-- Whether a fallible call succeeded. -/
def isOkB {ε α : Type} : Except ε α → Bool
  | Except.ok _ => true
  | Except.error _ => false

/-! # Helper lemmas -/

theorem setBatchAt_getElem_ne (ts : List RTensor) (i j b : Nat) (h : j ≠ i) :
    (setBatchAt ts i b)[j]? = ts[j]? := by
  induction ts generalizing i j with
  | nil => rfl
  | cons t ts ih =>
    cases i with
    | zero =>
      cases j with
      | zero => exact absurd rfl h
      | succ k => simp [setBatchAt]
    | succ n =>
      cases j with
      | zero => simp [setBatchAt]
      | succ k =>
        simp only [setBatchAt, List.getElem?_cons_succ]
        exact ih n k (fun hk => h (by omega))

theorem setBatchAt_getElem_eq (ts : List RTensor) (i b : Nat) :
    (setBatchAt ts i b)[i]? =
      ts[i]?.map (fun t => { t with dim := { t.dim with batch := b } }) := by
  induction ts generalizing i with
  | nil => cases i <;> rfl
  | cons t ts ih =>
    cases i with
    | zero => simp [setBatchAt]
    | succ n =>
      simp only [setBatchAt, List.getElem?_cons_succ]
      exact ih n

/-! # Claim theorems -/

/-- Claim C9: `LayerNormalizationLayer::finalize` throws `std::invalid_argument`
iff the init context's number of inputs is not exactly 1 or the declared axis
property list is empty; in every other case it completes and sets the output
dimensions equal to the single input dimension. -/
theorem C9_finalize_error_iff (props : LNProps) (st : LNLayerState)
    (ctx : InitLayerContext) (hlen : ctx.inputDims.length = ctx.numInputs) :
    (isOkB (LayerNormalizationLayer.finalize props st ctx) = false ↔
      ctx.numInputs ≠ 1 ∨ props.axesProp = []) ∧
    (∀ st2 ctx2,
      LayerNormalizationLayer.finalize props st ctx = Except.ok (st2, ctx2) →
      ctx2.outputDims = ctx.inputDims) := by
  unfold LayerNormalizationLayer.finalize
  split_ifs with h1 h2
  · constructor
    · simp [isOkB, h1]
    · intro st2 ctx2 h
      exact absurd h (by simp)
  · constructor
    · simp [isOkB, h2]
    · intro st2 ctx2 h
      exact absurd h (by simp)
  · constructor
    · simp [isOkB, h1, h2]
    · intro st2 ctx2 h
      rw [Except.ok.injEq, Prod.mk.injEq] at h
      obtain ⟨-, h⟩ := h
      subst h
      simp only [InitLayerContext.requestTensor, InitLayerContext.requestWeight]
      rw [not_not] at h1
      rw [h1] at hlen
      obtain ⟨a, ha⟩ := List.length_eq_one.mp hlen
      simp [ha]

/-- Claim C9 witness. -/
theorem C9_finalize_error_iff_witness :
    isOkB (LayerNormalizationLayer.finalize
      ⟨[3], 0, Initializer.ONES, Initializer.ZEROS, 0, 0⟩
      ⟨[], [], ⟨0, 0, 0, 0, 0, 0, 0⟩⟩
      ⟨2, [⟨2, 3, 4, 5⟩, ⟨2, 3, 4, 5⟩], [], [], []⟩) = false :=
  ((C9_finalize_error_iff _ _ _ (by decide)).1).mpr (Or.inl (by decide))

/-- Claim C10: `LayerNormalizationLayer::setBatch` updates the batch dimension
of exactly the five requested scratch tensors and changes nothing else; in
particular weights, inputs and outputs are untouched. -/
theorem C10_setBatch_frame (wt : WtIdx) (ctx : RunLayerContext) (b : Nat)
    (hdist : ([wt.deviation, wt.variance, wt.inv_std_dev, wt.temp_origin_size,
               wt.temp_normalized_size] : List Nat).Nodup) :
    ((LayerNormalizationLayer.setBatch wt ctx b).inputs = ctx.inputs ∧
     (LayerNormalizationLayer.setBatch wt ctx b).outputs = ctx.outputs ∧
     (LayerNormalizationLayer.setBatch wt ctx b).weights = ctx.weights) ∧
    (∀ j, j ≠ wt.deviation → j ≠ wt.variance → j ≠ wt.inv_std_dev →
      j ≠ wt.temp_origin_size → j ≠ wt.temp_normalized_size →
      (LayerNormalizationLayer.setBatch wt ctx b).tensors[j]? = ctx.tensors[j]?) ∧
    (∀ i, (i = wt.deviation ∨ i = wt.variance ∨ i = wt.inv_std_dev ∨
           i = wt.temp_origin_size ∨ i = wt.temp_normalized_size) →
      (LayerNormalizationLayer.setBatch wt ctx b).tensors[i]? =
        ctx.tensors[i]?.map (fun t => { t with dim := { t.dim with batch := b } })) := by
  rw [List.nodup_cons, List.nodup_cons, List.nodup_cons, List.nodup_cons] at hdist
  simp only [List.mem_cons, List.mem_singleton, List.not_mem_nil, or_false,
    not_or] at hdist
  obtain ⟨⟨hdv, hdi, hdo, hdn⟩, ⟨hvi, hvo, hvn⟩, ⟨hio, hin⟩, hon, -⟩ := hdist
  refine ⟨⟨rfl, rfl, rfl⟩, ?_, ?_⟩
  · intro j h1 h2 h3 h4 h5
    simp only [LayerNormalizationLayer.setBatch, RunLayerContext.updateTensor]
    rw [setBatchAt_getElem_ne _ _ _ _ h5, setBatchAt_getElem_ne _ _ _ _ h4,
      setBatchAt_getElem_ne _ _ _ _ h3, setBatchAt_getElem_ne _ _ _ _ h2,
      setBatchAt_getElem_ne _ _ _ _ h1]
  · intro i hi
    simp only [LayerNormalizationLayer.setBatch, RunLayerContext.updateTensor]
    rcases hi with rfl | rfl | rfl | rfl | rfl
    · rw [setBatchAt_getElem_ne _ _ _ _ hdn, setBatchAt_getElem_ne _ _ _ _ hdo,
        setBatchAt_getElem_ne _ _ _ _ hdi, setBatchAt_getElem_ne _ _ _ _ hdv,
        setBatchAt_getElem_eq]
    · rw [setBatchAt_getElem_ne _ _ _ _ hvn, setBatchAt_getElem_ne _ _ _ _ hvo,
        setBatchAt_getElem_ne _ _ _ _ hvi, setBatchAt_getElem_eq,
        setBatchAt_getElem_ne _ _ _ _ (Ne.symm hdv)]
    · rw [setBatchAt_getElem_ne _ _ _ _ hin, setBatchAt_getElem_ne _ _ _ _ hio,
        setBatchAt_getElem_eq, setBatchAt_getElem_ne _ _ _ _ (Ne.symm hvi),
        setBatchAt_getElem_ne _ _ _ _ (Ne.symm hdi)]
    · rw [setBatchAt_getElem_ne _ _ _ _ hon, setBatchAt_getElem_eq,
        setBatchAt_getElem_ne _ _ _ _ (Ne.symm hio),
        setBatchAt_getElem_ne _ _ _ _ (Ne.symm hvo),
        setBatchAt_getElem_ne _ _ _ _ (Ne.symm hdo)]
    · rw [setBatchAt_getElem_eq, setBatchAt_getElem_ne _ _ _ _ (Ne.symm hon),
        setBatchAt_getElem_ne _ _ _ _ (Ne.symm hin),
        setBatchAt_getElem_ne _ _ _ _ (Ne.symm hvn),
        setBatchAt_getElem_ne _ _ _ _ (Ne.symm hdn)]

/-- Claim C10 witness. -/
theorem C10_setBatch_frame_witness :
    (LayerNormalizationLayer.setBatch ⟨5, 6, 0, 1, 2, 3, 4⟩
      ⟨[], [], [⟨"g", ⟨1, 1, 1, 1⟩⟩], [⟨"d", ⟨1, 2, 3, 4⟩⟩, ⟨"v", ⟨1, 2, 3, 1⟩⟩,
        ⟨"i", ⟨1, 2, 3, 1⟩⟩, ⟨"o", ⟨1, 2, 3, 4⟩⟩, ⟨"n", ⟨1, 2, 3, 1⟩⟩,
        ⟨"x", ⟨9, 9, 9, 9⟩⟩]⟩ 7).tensors[5]? = some ⟨"x", ⟨9, 9, 9, 9⟩⟩ :=
  (C10_setBatch_frame ⟨5, 6, 0, 1, 2, 3, 4⟩ _ 7 (by decide)).2.1 5
    (by decide) (by decide) (by decide) (by decide) (by decide)

/-- Claim C7: the fp16 fast path of `incremental_forwarding` passes
`mean(deviation^2) - epsilon` to the inverse square root while `forwarding`
and the non-fp16 branch pass `mean(deviation^2) + epsilon`; for a concrete
input and positive epsilon the two branches compute different `inv_std_dev`
values. -/
theorem C7_fp16_epsilon_sign :
    (∀ dev eps, stdInvStdDevArg dev eps - fp16InvStdDevArg dev eps = 2 * eps) ∧
    (∃ dev : List ℚ, ∃ eps : ℚ, 0 < eps ∧ 0 < fp16InvStdDevArg dev eps ∧
      (1 : ℝ) / Real.sqrt ((fp16InvStdDevArg dev eps : ℚ) : ℝ) ≠
        (1 : ℝ) / Real.sqrt ((stdInvStdDevArg dev eps : ℚ) : ℝ)) := by
  constructor
  · intro dev eps
    unfold stdInvStdDevArg fp16InvStdDevArg
    ring
  · refine ⟨[1, -1], 1/2, by norm_num, ?_, ?_⟩
    · unfold fp16InvStdDevArg sumSquares
      norm_num
    · have h1 : ((fp16InvStdDevArg [1, -1] (1/2) : ℚ) : ℝ) = 1/2 := by
        unfold fp16InvStdDevArg sumSquares
        norm_num
      have h2 : ((stdInvStdDevArg [1, -1] (1/2) : ℚ) : ℝ) = 3/2 := by
        unfold stdInvStdDevArg sumSquares
        norm_num
      rw [h1, h2]
      have hpos : 0 < Real.sqrt (1/2) := Real.sqrt_pos.2 (by norm_num)
      have hlt : Real.sqrt (1/2) < Real.sqrt (3/2) :=
        Real.sqrt_lt_sqrt (by norm_num) (by norm_num)
      exact (one_div_lt_one_div_of_lt hpos hlt).ne'

theorem posInBy_lt_length {α : Type} (key : α → Nat) (l : List α) (u : α)
    (h : key u ∈ l.map key) : posInBy key l u < l.length := by
  induction l with
  | nil => simp at h
  | cons n rest ih =>
    simp only [posInBy]
    by_cases hn : key u = key n
    · rw [if_pos hn]
      simp
    · rw [if_neg hn]
      simp only [List.map_cons, List.mem_cons] at h
      rcases h with h | h
      · exact absurd h hn
      · have := ih h
        simp only [List.length_cons]
        omega

theorem posInBy_of_not_mem {α : Type} (key : α → Nat) (l : List α) (u : α)
    (h : key u ∉ l.map key) : posInBy key l u = l.length := by
  induction l with
  | nil => rfl
  | cons n rest ih =>
    simp only [List.map_cons, List.mem_cons, not_or] at h
    simp only [posInBy, if_neg h.1, List.length_cons]
    rw [ih h.2]

theorem posInBy_append {α : Type} (key : α → Nat) (l1 l2 : List α) (u : α) :
    posInBy key (l1 ++ l2) u =
      if key u ∈ l1.map key then posInBy key l1 u
      else l1.length + posInBy key l2 u := by
  induction l1 with
  | nil => simp [posInBy]
  | cons n rest ih =>
    have hstep : posInBy key ((n :: rest) ++ l2) u =
        if key u = key n then 0 else posInBy key (rest ++ l2) u + 1 := rfl
    rw [hstep]
    by_cases hn : key u = key n
    · rw [if_pos hn, if_pos (by simp [hn])]
      simp [posInBy, hn]
    · rw [if_neg hn, ih]
      by_cases hr : key u ∈ rest.map key
      · rw [if_pos hr, if_pos (by simp [hr])]
        simp [posInBy, if_neg hn]
      · rw [if_neg hr, if_neg (by simp [hn, hr])]
        simp only [List.length_cons]
        omega

theorem posInBy_reverse_iff {α : Type} (key : α → Nat) (l : List α)
    (hnd : (l.map key).Nodup) (u v : α) (hu : u ∈ l) (hv : v ∈ l)
    (hne : key u ≠ key v) :
    (posInBy key l u < posInBy key l v ↔
      posInBy key l.reverse v < posInBy key l.reverse u) := by
  induction l with
  | nil => exact absurd hu (List.not_mem_nil u)
  | cons n rest ih =>
    simp only [List.map_cons, List.nodup_cons] at hnd
    obtain ⟨hnin, hndr⟩ := hnd
    simp only [List.reverse_cons, posInBy]
    have hrevmap : ∀ x : α, x ∈ rest → key x ∈ rest.reverse.map key := by
      intro x hx
      rw [List.map_reverse, List.mem_reverse]
      exact List.mem_map_of_mem key hx
    by_cases hun : key u = key n
    · have hvr : v ∈ rest := by
        rcases List.mem_cons.mp hv with rfl | hvr
        · exact absurd hun hne
        · exact hvr
      have hvn : key v ≠ key n := fun h => hne (hun.trans h.symm)
      rw [if_pos hun, if_neg hvn]
      have hnotin : key u ∉ rest.reverse.map key := by
        rw [List.map_reverse, List.mem_reverse, hun]
        exact hnin
      have hupos : posInBy key (rest.reverse ++ [n]) u =
          rest.reverse.length := by
        rw [posInBy_append, if_neg hnotin]
        simp [posInBy, hun]
      have hvpos : posInBy key (rest.reverse ++ [n]) v =
          posInBy key rest.reverse v := by
        rw [posInBy_append, if_pos (hrevmap v hvr)]
      rw [hupos, hvpos]
      have hvlt : posInBy key rest.reverse v < rest.reverse.length :=
        posInBy_lt_length key rest.reverse v (hrevmap v hvr)
      constructor
      · intro _
        omega
      · intro _
        omega
    · by_cases hvn : key v = key n
      · have hur : u ∈ rest := by
          rcases List.mem_cons.mp hu with rfl | hur
          · exact absurd rfl hun
          · exact hur
        rw [if_neg hun, if_pos hvn]
        have hnotin : key v ∉ rest.reverse.map key := by
          rw [List.map_reverse, List.mem_reverse, hvn]
          exact hnin
        have hvpos : posInBy key (rest.reverse ++ [n]) v =
            rest.reverse.length := by
          rw [posInBy_append, if_neg hnotin]
          simp [posInBy, hvn]
        have hupos : posInBy key (rest.reverse ++ [n]) u =
            posInBy key rest.reverse u := by
          rw [posInBy_append, if_pos (hrevmap u hur)]
        rw [hupos, hvpos]
        have hult : posInBy key rest.reverse u < rest.reverse.length :=
          posInBy_lt_length key rest.reverse u (hrevmap u hur)
        constructor
        · intro h
          omega
        · intro h
          omega
      · have hur : u ∈ rest := by
          rcases List.mem_cons.mp hu with rfl | hur
          · exact absurd rfl hun
          · exact hur
        have hvr : v ∈ rest := by
          rcases List.mem_cons.mp hv with rfl | hvr
          · exact absurd rfl hvn
          · exact hvr
        rw [if_neg hun, if_neg hvn]
        have hupos : posInBy key (rest.reverse ++ [n]) u =
            posInBy key rest.reverse u := by
          rw [posInBy_append, if_pos (hrevmap u hur)]
        have hvpos : posInBy key (rest.reverse ++ [n]) v =
            posInBy key rest.reverse v := by
          rw [posInBy_append, if_pos (hrevmap v hvr)]
        rw [hupos, hvpos]
        rw [Nat.add_lt_add_iff_right]
        exact ih hndr hur hvr

theorem posInBy_filter_iff {α : Type} (key : α → Nat) (p : α → Bool)
    (l : List α) (hnd : (l.map key).Nodup) (u v : α)
    (hu : u ∈ l.filter p) (hv : v ∈ l.filter p) (hne : key u ≠ key v) :
    (posInBy key (l.filter p) u < posInBy key (l.filter p) v ↔
      posInBy key l u < posInBy key l v) := by
  induction l with
  | nil => exact absurd hu (by simp)
  | cons n rest ih =>
    simp only [List.map_cons, List.nodup_cons] at hnd
    obtain ⟨hnin, hndr⟩ := hnd
    by_cases hp : p n = true
    · rw [List.filter_cons_of_pos hp] at hu hv ⊢
      by_cases hun : key u = key n
      · have hvn : key v ≠ key n := fun h => hne (hun.trans h.symm)
        have hvr : v ∈ rest.filter p := by
          rcases List.mem_cons.mp hv with rfl | hvr
          · exact absurd hun hne
          · exact hvr
        simp only [posInBy, if_pos hun, if_neg hvn]
        constructor
        · intro _
          omega
        · intro _
          omega
      · by_cases hvn : key v = key n
        · simp only [posInBy, if_neg hun, if_pos hvn]
          constructor
          · intro h
            omega
          · intro h
            omega
        · have hur : u ∈ rest.filter p := by
            rcases List.mem_cons.mp hu with rfl | hur
            · exact absurd rfl hun
            · exact hur
          have hvr : v ∈ rest.filter p := by
            rcases List.mem_cons.mp hv with rfl | hvr
            · exact absurd rfl hvn
            · exact hvr
          simp only [posInBy, if_neg hun, if_neg hvn,
            Nat.add_lt_add_iff_right]
          exact ih hndr hur hvr
    · rw [List.filter_cons_of_neg (by simpa using hp)] at hu hv ⊢
      have hur : u ∈ rest := List.mem_of_mem_filter hu
      have hun : key u ≠ key n := by
        intro h
        rw [← h] at hnin
        exact hnin (List.mem_map_of_mem key hur)
      have hvr : v ∈ rest := List.mem_of_mem_filter hv
      have hvn : key v ≠ key n := by
        intro h
        rw [← h] at hnin
        exact hnin (List.mem_map_of_mem key hvr)
      simp only [posInBy, if_neg hun, if_neg hvn, Nat.add_lt_add_iff_right]
      exact ih hndr hu hv

theorem posInBy_get {α : Type} (key : α → Nat) (l : List α)
    (hnd : (l.map key).Nodup) (i : Nat) (h : i < l.length) :
    posInBy key l (l.get ⟨i, h⟩) = i := by
  induction l generalizing i with
  | nil => simp at h
  | cons n rest ih =>
    simp only [List.map_cons, List.nodup_cons] at hnd
    obtain ⟨hnin, hndr⟩ := hnd
    cases i with
    | zero => simp [posInBy]
    | succ k =>
      have hk : k < rest.length := by
        simp only [List.length_cons] at h
        omega
      have hget : (n :: rest).get ⟨k + 1, h⟩ = rest.get ⟨k, hk⟩ := rfl
      rw [hget]
      have hne : key (rest.get ⟨k, hk⟩) ≠ key n := by
        intro heq
        rw [← heq] at hnin
        exact hnin (List.mem_map_of_mem key (rest.get_mem k hk))
      simp only [posInBy, if_neg hne]
      rw [ih hndr k hk]

theorem bool_eq_of_iff {a b : Bool} (h : a = true ↔ b = true) : a = b := by
  cases a <;> cases b <;> simp_all

theorem readyIn_iff (done : List Nat) (n : GNode) :
    readyIn done n = true ↔ ∀ i ∈ n.inputs, i ∈ done := by
  unfold readyIn
  simp

theorem readyIn_congr (d1 d2 : List Nat) (h : ∀ x : Nat, x ∈ d1 ↔ x ∈ d2)
    (n : GNode) : readyIn d1 n = readyIn d2 n := by
  apply bool_eq_of_iff
  rw [readyIn_iff, readyIn_iff]
  constructor <;> intro ha i hi
  · exact (h i).mp (ha i hi)
  · exact (h i).mpr (ha i hi)

theorem readyIn_mono (d1 d2 : List Nat) (h : ∀ x : Nat, x ∈ d1 → x ∈ d2)
    (n : GNode) (hr : readyIn d1 n = true) : readyIn d2 n = true := by
  rw [readyIn_iff] at hr ⊢
  exact fun i hi => h i (hr i hi)

theorem validOrderB_congr (l : List GNode) (d1 d2 : List Nat)
    (h : ∀ x : Nat, x ∈ d1 ↔ x ∈ d2) : validOrderB d1 l = validOrderB d2 l := by
  induction l generalizing d1 d2 with
  | nil => rfl
  | cons n rest ih =>
    unfold validOrderB
    rw [readyIn_congr d1 d2 h n, ih (n.name :: d1) (n.name :: d2)
      (by intro x; simp [h x])]

theorem firstReady_some (done : List Nat) (l : List GNode) (p : GNode)
    (h : firstReady done l = some p) : p ∈ l ∧ readyIn done p = true := by
  induction l with
  | nil => exact absurd h (by simp [firstReady])
  | cons n rest ih =>
    unfold firstReady at h
    by_cases hr : readyIn done n = true
    · rw [if_pos hr] at h
      obtain rfl := Option.some.injEq .. ▸ h
      exact ⟨List.mem_cons_self n rest, hr⟩
    · rw [if_neg hr] at h
      obtain ⟨hm, hready⟩ := ih h
      exact ⟨List.mem_cons_of_mem n hm, hready⟩

theorem firstReady_none (done : List Nat) (l : List GNode)
    (h : firstReady done l = none) : ∀ n ∈ l, readyIn done n = false := by
  induction l with
  | nil => intro n hn; exact absurd hn (List.not_mem_nil n)
  | cons m rest ih =>
    unfold firstReady at h
    by_cases hr : readyIn done m = true
    · rw [if_pos hr] at h
      exact absurd h (by simp)
    · rw [if_neg hr] at h
      intro n hn
      rcases List.mem_cons.mp hn with rfl | hn2
      · exact Bool.not_eq_true _ ▸ (by simpa using hr)
      · exact ih h n hn2

theorem firstReady_min {R : GNode → GNode → Prop} (done : List Nat)
    (l : List GNode) (p q : GNode) (h : firstReady done l = some p)
    (hq : q ∈ l) (hqr : readyIn done q = true) (hne : q ≠ p)
    (hpw : l.Pairwise R) : R p q := by
  induction l with
  | nil => exact absurd h (by simp [firstReady])
  | cons n rest ih =>
    unfold firstReady at h
    by_cases hr : readyIn done n = true
    · rw [if_pos hr] at h
      obtain rfl := Option.some.injEq .. ▸ h
      rcases List.mem_cons.mp hq with rfl | hq2
      · exact absurd rfl hne
      · exact (List.pairwise_cons.mp hpw).1 q hq2
    · rw [if_neg hr] at h
      rcases List.mem_cons.mp hq with rfl | hq2
      · exact absurd hqr hr
      · exact ih h hq2 (List.pairwise_cons.mp hpw).2

theorem topoAux_some (fuel : Nat) (done : List Nat) (remaining : List GNode)
    (L : List GNode) (h : topoSortAux done remaining fuel = some L) :
    L.Perm remaining ∧ validOrderB done L = true := by
  induction fuel generalizing done remaining L with
  | zero =>
    unfold topoSortAux at h
    by_cases he : remaining.isEmpty = true
    · rw [if_pos he] at h
      obtain rfl := Option.some.injEq .. ▸ h
      exact ⟨by simp [List.isEmpty_iff.mp he], rfl⟩
    · rw [if_neg he] at h
      exact absurd h (by simp)
  | succ fuel ih =>
    unfold topoSortAux at h
    by_cases he : remaining.isEmpty = true
    · rw [if_pos he] at h
      obtain rfl := Option.some.injEq .. ▸ h
      exact ⟨by simp [List.isEmpty_iff.mp he], rfl⟩
    · rw [if_neg he] at h
      cases hf : firstReady done remaining with
      | none =>
        rw [hf] at h
        exact absurd h (by simp)
      | some p =>
        rw [hf] at h
        change (topoSortAux (p.name :: done) (remaining.erase p) fuel).map
          (fun l => p :: l) = some L at h
        cases hrec : topoSortAux (p.name :: done) (remaining.erase p) fuel with
        | none =>
          rw [hrec] at h
          exact absurd h (by simp)
        | some L2 =>
          rw [hrec] at h
          have h2 : p :: L2 = L := by simpa using h
          subst h2
          obtain ⟨hmem, hready⟩ := firstReady_some done remaining p hf
          obtain ⟨hperm, hvalid⟩ := ih (p.name :: done) (remaining.erase p) L2 hrec
          constructor
          · exact (hperm.cons p).trans (List.perm_cons_erase hmem).symm
          · unfold validOrderB
            rw [hready, hvalid]
            rfl

theorem posIn_cons (n : GNode) (rest : List GNode) (u : GNode) :
    posIn (n :: rest) u = if u.name = n.name then 0 else posIn rest u + 1 := rfl

theorem validOrder_pos_lt (L : List GNode) (done : List Nat)
    (hnd : (namesOf L).Nodup) (hv : validOrderB done L = true)
    (u v : GNode) (hu : u ∈ L) (hvm : v ∈ L) (hedge : u.name ∈ v.inputs)
    (hdone : u.name ∉ done) : posIn L u < posIn L v := by
  induction L generalizing done with
  | nil => exact absurd hu (List.not_mem_nil u)
  | cons n rest ih =>
    unfold validOrderB at hv
    rw [Bool.and_eq_true] at hv
    obtain ⟨hready, hvrest⟩ := hv
    unfold namesOf at hnd
    simp only [List.map_cons, List.nodup_cons] at hnd
    obtain ⟨hnin, hndr⟩ := hnd
    rcases List.mem_cons.mp hvm with rfl | hvr
    · rw [readyIn_iff] at hready
      exact absurd (hready u.name hedge) hdone
    · have hvname : v.name ≠ n.name := by
        intro h
        rw [← h] at hnin
        exact hnin (List.mem_map_of_mem _ hvr)
      rcases List.mem_cons.mp hu with rfl | hur
      · rw [posIn_cons, posIn_cons, if_pos rfl, if_neg hvname]
        omega
      · have huname : u.name ≠ n.name := by
          intro h
          rw [← h] at hnin
          exact hnin (List.mem_map_of_mem _ hur)
        rw [posIn_cons, posIn_cons, if_neg huname, if_neg hvname]
        have hrec := ih (n.name :: done) hndr hvrest hur hvr
          (by
            intro hmem
            rcases List.mem_cons.mp hmem with h | h
            · exact huname h
            · exact hdone h)
        omega

theorem valid_no_cycle (G L : List GNode) (hperm : L.Perm G)
    (hnd : (namesOf L).Nodup) (hv : validOrderB [] L = true) (u : GNode) :
    ¬ Relation.TransGen (edgeIn G) u u := by
  have hstep : ∀ a b, Relation.TransGen (edgeIn G) a b →
      posIn L a < posIn L b := by
    intro a b h
    induction h with
    | single he =>
      exact validOrder_pos_lt L [] hnd hv _ _ (hperm.mem_iff.mpr he.1)
        (hperm.mem_iff.mpr he.2.1) he.2.2 (List.not_mem_nil _)
    | tail hab he ih =>
      exact lt_trans ih (validOrder_pos_lt L [] hnd hv _ _
        (hperm.mem_iff.mpr he.1) (hperm.mem_iff.mpr he.2.1) he.2.2
        (List.not_mem_nil _))
  intro hcyc
  exact lt_irrefl _ (hstep u u hcyc)

theorem exists_cycle_of_preds (G S : List GNode) (hne : S ≠ [])
    (hpred : ∀ n ∈ S, ∃ m ∈ S, edgeIn G m n) :
    ∃ u, Relation.TransGen (edgeIn G) u u := by
  by_contra hno
  push_neg at hno
  haveI : IsTrans {x : GNode // x ∈ S.toFinset}
      (fun a b => Relation.TransGen (edgeIn G) a.1 b.1) :=
    ⟨fun _ _ _ hab hbc => Relation.TransGen.trans hab hbc⟩
  haveI : IsIrrefl {x : GNode // x ∈ S.toFinset}
      (fun a b => Relation.TransGen (edgeIn G) a.1 b.1) :=
    ⟨fun a ha => hno a.1 ha⟩
  have hwf : WellFounded (fun (a b : {x : GNode // x ∈ S.toFinset}) =>
      Relation.TransGen (edgeIn G) a.1 b.1) :=
    Finite.wellFounded_of_trans_of_irrefl _
  obtain ⟨n0, hn0⟩ := List.exists_mem_of_ne_nil S hne
  obtain ⟨m, -, hmin⟩ := hwf.has_min Set.univ
    ⟨⟨n0, List.mem_toFinset.mpr hn0⟩, Set.mem_univ _⟩
  obtain ⟨p, hp, hedge⟩ := hpred m.1 (List.mem_toFinset.mp m.2)
  exact hmin ⟨p, List.mem_toFinset.mpr hp⟩ (Set.mem_univ _)
    (Relation.TransGen.single hedge)

theorem topoAux_none_cycle (G : List GNode) (fuel : Nat) :
    ∀ (done : List Nat) (remaining : List GNode),
      remaining.length ≤ fuel →
      (∀ n ∈ remaining, n ∈ G) →
      (∀ n ∈ remaining, ∀ i ∈ n.inputs, i ∈ done ∨ ∃ m ∈ remaining, m.name = i) →
      (namesOf remaining).Nodup →
      topoSortAux done remaining fuel = none →
      ∃ u, Relation.TransGen (edgeIn G) u u := by
  induction fuel with
  | zero =>
    intro done remaining hlen hsub hinv hnd h
    have hempty : remaining = [] := List.length_eq_zero.mp (Nat.le_zero.mp hlen)
    subst hempty
    exact absurd h (by simp [topoSortAux])
  | succ fuel ih =>
    intro done remaining hlen hsub hinv hnd h
    unfold topoSortAux at h
    by_cases he : remaining.isEmpty = true
    · rw [if_pos he] at h
      exact absurd h (by simp)
    · rw [if_neg he] at h
      cases hf : firstReady done remaining with
      | none =>
        have hne : remaining ≠ [] := fun hh => he (by simp [hh])
        apply exists_cycle_of_preds G remaining hne
        intro n hn
        have hnotready := firstReady_none done remaining hf n hn
        have hex : ∃ i ∈ n.inputs, i ∉ done := by
          by_contra hc
          push_neg at hc
          rw [(readyIn_iff done n).mpr hc] at hnotready
          exact absurd hnotready (by simp)
        obtain ⟨i, hi, hid⟩ := hex
        rcases hinv n hn i hi with hdone | ⟨m, hm, hmname⟩
        · exact absurd hdone hid
        · exact ⟨m, hm, hsub m hm, hsub n hn, by rw [hmname]; exact hi⟩
      | some p =>
        rw [hf] at h
        change (topoSortAux (p.name :: done) (remaining.erase p) fuel).map
          (fun l => p :: l) = none at h
        cases hrec : topoSortAux (p.name :: done) (remaining.erase p) fuel with
        | some L2 =>
          rw [hrec] at h
          exact absurd h (by simp)
        | none =>
          obtain ⟨hpmem, hpready⟩ := firstReady_some done remaining p hf
          apply ih (p.name :: done) (remaining.erase p)
          · rw [List.length_erase_of_mem hpmem]
            omega
          · intro n hn
            exact hsub n (List.mem_of_mem_erase hn)
          · intro n hn i hi
            rcases hinv n (List.mem_of_mem_erase hn) i hi with
              hdone | ⟨m, hm, hname⟩
            · exact Or.inl (List.mem_cons_of_mem _ hdone)
            · by_cases hmp : m = p
              · subst hmp
                subst hname
                exact Or.inl (List.mem_cons_self _ _)
              · exact Or.inr ⟨m, (List.mem_erase_of_ne hmp).mpr hm, hname⟩
          · exact List.Nodup.sublist
              (List.Sublist.map _ (List.erase_sublist p remaining)) hnd
          · exact hrec

theorem posIn_get (g : List GNode) (hnd : (namesOf g).Nodup)
    (i : Fin g.length) : posIn g (g.get i) = i.1 := by
  have hnd2 : (g.map fun n => n.name).Nodup := hnd
  unfold posIn
  have h := posInBy_get (fun n => n.name) g hnd2 i.1 i.2
  simpa using h

theorem pairwise_posIn (g : List GNode) (hnd : (namesOf g).Nodup) :
    g.Pairwise (fun a b => posIn g a < posIn g b) := by
  rw [List.pairwise_iff_get]
  intro i j hij
  rw [posIn_get g hnd i, posIn_get g hnd j]
  exact hij

theorem topoAux_lex (R : GNode → GNode → Prop) (fuel : Nat) :
    ∀ (done : List Nat) (remaining L L2 : List GNode),
      topoSortAux done remaining fuel = some L →
      remaining.Pairwise R →
      L2.Perm remaining → validOrderB done L2 = true →
      L = L2 ∨ List.Lex R L L2 := by
  induction fuel with
  | zero =>
    intro done remaining L L2 h hpw hperm hv
    unfold topoSortAux at h
    by_cases he : remaining.isEmpty = true
    · rw [if_pos he] at h
      obtain rfl := Option.some.injEq .. ▸ h
      left
      have hrem : remaining = [] := List.isEmpty_iff.mp he
      subst hrem
      exact (List.Perm.eq_nil hperm).symm
    · rw [if_neg he] at h
      exact absurd h (by simp)
  | succ fuel ih =>
    intro done remaining L L2 h hpw hperm hv
    unfold topoSortAux at h
    by_cases he : remaining.isEmpty = true
    · rw [if_pos he] at h
      obtain rfl := Option.some.injEq .. ▸ h
      left
      have hrem : remaining = [] := List.isEmpty_iff.mp he
      subst hrem
      exact (List.Perm.eq_nil hperm).symm
    · rw [if_neg he] at h
      cases hf : firstReady done remaining with
      | none =>
        rw [hf] at h
        exact absurd h (by simp)
      | some p =>
        rw [hf] at h
        change (topoSortAux (p.name :: done) (remaining.erase p) fuel).map
          (fun l => p :: l) = some L at h
        cases hrec : topoSortAux (p.name :: done) (remaining.erase p) fuel with
        | none =>
          rw [hrec] at h
          exact absurd h (by simp)
        | some L3 =>
          rw [hrec] at h
          have h2 : p :: L3 = L := by simpa using h
          subst h2
          cases L2 with
          | nil =>
            exact absurd (List.Perm.eq_nil hperm.symm) (fun hh => he (by simp [hh]))
          | cons q t =>
            have hqmem : q ∈ remaining := hperm.subset (List.mem_cons_self q t)
            unfold validOrderB at hv
            rw [Bool.and_eq_true] at hv
            obtain ⟨hqready, hvt⟩ := hv
            by_cases hqp : q = p
            · subst hqp
              have htperm : t.Perm (remaining.erase q) :=
                List.Perm.cons_inv (hperm.trans (List.perm_cons_erase hqmem))
              rcases ih (q.name :: done) (remaining.erase q) L3 t hrec
                  (List.Pairwise.sublist (List.erase_sublist q remaining) hpw)
                  htperm hvt with heq | hlex
              · left
                rw [heq]
              · right
                exact List.Lex.cons hlex
            · right
              exact List.Lex.rel
                (firstReady_min done remaining p q hf hqmem hqready hqp hpw)

theorem cyclic_sort_none (g : List GNode) (hnd : (namesOf g).Nodup)
    (hcyc : hasCycle g) : topologicalSort g = none := by
  cases hs : topologicalSort g with
  | none => rfl
  | some L =>
    exfalso
    unfold topologicalSort at hs
    obtain ⟨hperm, hvalid⟩ := topoAux_some _ _ _ _ hs
    obtain ⟨u, hu⟩ := hcyc
    have hnd2 : (g.map fun n => n.name).Nodup := hnd
    have hndL : (namesOf L).Nodup := (List.Perm.nodup_iff
      (List.Perm.map (fun n : GNode => n.name) hperm)).mpr hnd2
    exact valid_no_cycle g L hperm hndL hvalid u hu

theorem le_foldr_max (l : List Nat) (x : Nat) (h : x ∈ l) :
    x ≤ l.foldr max 0 := by
  induction l with
  | nil => exact absurd h (List.not_mem_nil x)
  | cons y ys ih =>
    rcases List.mem_cons.mp h with rfl | h2
    · exact le_max_left _ _
    · exact le_trans (ih h2) (le_max_right _ _)

theorem freshName_not_mem (nodes : List GNode) :
    freshName nodes ∉ namesOf nodes := by
  intro h
  have := le_foldr_max (namesOf nodes) (freshName nodes) h
  unfold freshName at this
  omega

theorem hasCycle_extend (g gext : List GNode) (h : hasCycle g) :
    hasCycle (g ++ gext) := by
  obtain ⟨u, hu⟩ := h
  refine ⟨u, Relation.TransGen.mono ?_ hu⟩
  intro a b hab
  exact ⟨List.mem_append_left _ hab.1, List.mem_append_left _ hab.2.1, hab.2.2⟩

theorem addLossLayer_nodup (lossType : String) (g : List GNode)
    (hnd : (namesOf g).Nodup) : (namesOf (addLossLayer lossType g)).Nodup := by
  unfold addLossLayer
  by_cases hlt : lossType = ""
  · rw [if_pos hlt]
    exact hnd
  · rw [if_neg hlt]
    unfold namesOf
    rw [List.map_append]
    rw [List.nodup_append]
    refine ⟨hnd, List.nodup_singleton _, ?_⟩
    intro a ha hb
    simp only [List.map_cons, List.map_nil, List.mem_singleton] at hb
    subst hb
    exact freshName_not_mem g ha

/-- Claim C1: for a well-formed node set (unique names, resolving
references), a successful topological sort is a permutation of the stored
nodes in which the source of every dependency edge precedes its target and
which is the insertion-order-lexicographically least among all linear
extensions (stable, deterministic tie-break); the sort succeeds exactly on
acyclic node sets, and on a cyclic node set `compile` fails with
`CycleError`. -/
theorem C1_topological_sort (g : List GNode)
    (hnd : (namesOf g).Nodup)
    (hres : ∀ n ∈ g, ∀ i ∈ n.inputs, i ∈ namesOf g) :
    (∀ L, topologicalSort g = some L →
      L.Perm g ∧
      (∀ u v, u ∈ g → v ∈ g → u.name ∈ v.inputs → posIn L u < posIn L v) ∧
      (∀ L2, L2.Perm g → validOrderB [] L2 = true →
        L = L2 ∨ List.Lex (fun a b => posIn g a < posIn g b) L L2)) ∧
    (¬ hasCycle g → (topologicalSort g).isSome = true) ∧
    (hasCycle g → topologicalSort g = none) ∧
    (∀ lossType s, s.nodes = g → g ≠ [] → hasCycle g →
      (NetworkGraph.compile lossType s).1 = some CompileError.CycleError) := by
  refine ⟨?_, ?_, ?_, ?_⟩
  · intro L h
    unfold topologicalSort at h
    obtain ⟨hperm, hvalid⟩ := topoAux_some _ _ _ _ h
    have hnd2 : (g.map fun n => n.name).Nodup := hnd
    have hndL : (namesOf L).Nodup := (List.Perm.nodup_iff
      (List.Perm.map (fun n : GNode => n.name) hperm)).mpr hnd2
    refine ⟨hperm, ?_, ?_⟩
    · intro u v hu hv hedge
      exact validOrder_pos_lt L [] hndL hvalid u v (hperm.mem_iff.mpr hu)
        (hperm.mem_iff.mpr hv) hedge (List.not_mem_nil _)
    · intro L2 hL2 hv2
      exact topoAux_lex _ g.length [] g L L2 h (pairwise_posIn g hnd) hL2 hv2
  · intro hnc
    cases hs : topologicalSort g with
    | some L => rfl
    | none =>
      exfalso
      unfold topologicalSort at hs
      apply hnc
      apply topoAux_none_cycle g g.length [] g (le_refl _) (fun n hn => hn)
        ?_ hnd hs
      intro n hn i hi
      right
      obtain ⟨m, hm, hmname⟩ := List.mem_map.mp (hres n hn i hi)
      exact ⟨m, hm, hmname⟩
  · exact cyclic_sort_none g hnd
  · intro lossType s hsnodes hne hcyc
    have hcomp : isCompilable g = true := by
      unfold isCompilable
      rw [Bool.and_eq_true, Bool.and_eq_true]
      refine ⟨⟨?_, ?_⟩, ?_⟩
      · simp [hne]
      · simp [hnd]
      · rw [List.all_eq_true]
        intro n hn
        rw [List.all_eq_true]
        intro i hi
        simp [hres n hn i hi]
    have hsortfail : topologicalSort (addLossLayer lossType g) = none := by
      apply cyclic_sort_none _ (addLossLayer_nodup lossType g hnd)
      unfold addLossLayer
      by_cases hlt : lossType = ""
      · rw [if_pos hlt]
        exact hcyc
      · rw [if_neg hlt]
        exact hasCycle_extend g _ hcyc
    unfold NetworkGraph.compile
    rw [hsnodes, hcomp]
    simp only [Bool.not_true, Bool.false_eq_true, if_false, hsortfail]

/-- Claim C1 witness: a two-node cycle makes the sort fail and compile report
`CycleError`. -/
theorem C1_topological_sort_witness :
    topologicalSort [⟨1, [2]⟩, ⟨2, [1]⟩] = none ∧
    (NetworkGraph.compile "mse"
      ⟨[⟨1, [2]⟩, ⟨2, [1]⟩], [], false, false⟩).1 =
        some CompileError.CycleError := by
  have hedge1 : edgeIn [⟨1, [2]⟩, ⟨2, [1]⟩] ⟨1, [2]⟩ ⟨2, [1]⟩ :=
    ⟨by decide, by decide, by decide⟩
  have hedge2 : edgeIn [⟨1, [2]⟩, ⟨2, [1]⟩] ⟨2, [1]⟩ ⟨1, [2]⟩ :=
    ⟨by decide, by decide, by decide⟩
  have hcyc : hasCycle [⟨1, [2]⟩, ⟨2, [1]⟩] :=
    ⟨⟨1, [2]⟩, Relation.TransGen.tail
      (Relation.TransGen.single hedge1) hedge2⟩
  exact ⟨(C1_topological_sort _ (by decide) (by decide)).2.2.1 hcyc,
         (C1_topological_sort _ (by decide) (by decide)).2.2.2 "mse"
           ⟨[⟨1, [2]⟩, ⟨2, [1]⟩], [], false, false⟩ rfl (by decide) hcyc⟩

/-- Claim C5: a failed `compile` commits nothing: the returned state equals
the state before the call, the compiled flag is still false, no implicit
nodes were inserted, no sort result or execution orders were stored. -/
theorem C5_compile_failure_no_commit (lossType : String) (s : GraphState)
    (e : CompileError) (hun : s.uninitialized)
    (hfail : (NetworkGraph.compile lossType s).1 = some e) :
    (NetworkGraph.compile lossType s).2 = s ∧
    (NetworkGraph.compile lossType s).2.compiledFlag = false ∧
    (NetworkGraph.compile lossType s).2.nodes = s.nodes ∧
    (NetworkGraph.compile lossType s).2.sortedNodes = [] ∧
    (NetworkGraph.compile lossType s).2.ordersAssigned = false := by
  obtain ⟨hsort, hord, hflag⟩ := hun
  unfold NetworkGraph.compile at hfail ⊢
  by_cases hc : (!isCompilable s.nodes) = true
  · rw [if_pos hc]
    exact ⟨rfl, hflag, rfl, hsort, hord⟩
  · rw [if_neg hc] at hfail ⊢
    cases hts : topologicalSort (addLossLayer lossType s.nodes) with
    | none =>
      simp only [hts]
      exact ⟨trivial, hflag, trivial, hsort, hord⟩
    | some sorted =>
      rw [hts] at hfail
      exact absurd hfail (by simp)

/-- Claim C5 witness: compiling an empty graph fails and leaves the state
untouched. -/
theorem C5_compile_failure_no_commit_witness :
    (NetworkGraph.compile "mse" ⟨[], [], false, false⟩).2 =
      (⟨[], [], false, false⟩ : GraphState) :=
  (C5_compile_failure_no_commit "mse" ⟨[], [], false, false⟩
    CompileError.InvalidParameterError ⟨rfl, rfl, rfl⟩ (by decide)).1

/-- Claim C2: the backward-order list equals the reverse of the forward-order
list restricted to backward-necessary nodes (the reverse traversal between
`getBackwardingBeginIter` and `getBackwardingEndIter` filtered to the
backward-necessary subset), forward orders enumerate the topological
positions, and for two backward-necessary nodes the backward order compares
exactly opposite to the forward order. -/
theorem C2_backward_is_reverse_forward (sorted : List ENode)
    (hnd : (sorted.map fun n => n.name).Nodup) :
    (backwardOrderList sorted =
      (sorted.reverse).filter (fun n => n.needsBackward)) ∧
    (∀ i, ∀ h : i < sorted.length,
      forward_order sorted (sorted.get ⟨i, h⟩) = i) ∧
    (∀ u v, u ∈ backwardOrderList sorted → v ∈ backwardOrderList sorted →
      u.name ≠ v.name →
      (backward_order sorted u < backward_order sorted v ↔
        forward_order sorted v < forward_order sorted u)) := by
  refine ⟨rfl, ?_, ?_⟩
  · intro i h
    exact posInBy_get _ sorted hnd i h
  · intro u v hu hv hne
    have hrevnd : (sorted.reverse.map fun n => n.name).Nodup := by
      rw [List.map_reverse]
      exact List.nodup_reverse.mpr hnd
    have hu2 : u ∈ sorted.reverse := List.mem_of_mem_filter hu
    have hv2 : v ∈ sorted.reverse := List.mem_of_mem_filter hv
    have hu3 : u ∈ sorted := List.mem_reverse.mp hu2
    have hv3 : v ∈ sorted := List.mem_reverse.mp hv2
    have hu4 : u ∈ (sorted.reverse).filter (fun n => n.needsBackward) := hu
    have hv4 : v ∈ (sorted.reverse).filter (fun n => n.needsBackward) := hv
    unfold backward_order backwardOrderList backwardTraversal forward_order eposIn
    rw [posInBy_filter_iff (fun n => n.name) (fun n => n.needsBackward)
      sorted.reverse hrevnd u v hu4 hv4 hne]
    rw [← posInBy_reverse_iff (fun n => n.name) sorted hnd v u hv3 hu3
      (Ne.symm hne)]

/-- Claim C2 witness. -/
theorem C2_backward_is_reverse_forward_witness :
    backward_order [⟨0, true⟩, ⟨1, false⟩, ⟨2, true⟩] ⟨2, true⟩ <
        backward_order [⟨0, true⟩, ⟨1, false⟩, ⟨2, true⟩] ⟨0, true⟩ ↔
      forward_order [⟨0, true⟩, ⟨1, false⟩, ⟨2, true⟩] ⟨0, true⟩ <
        forward_order [⟨0, true⟩, ⟨1, false⟩, ⟨2, true⟩] ⟨2, true⟩ :=
  (C2_backward_is_reverse_forward [⟨0, true⟩, ⟨1, false⟩, ⟨2, true⟩]
    (by decide)).2.2 ⟨2, true⟩ ⟨0, true⟩ (by decide) (by decide) (by decide)

theorem rangesOverlap_comm (a b : TensorReq) :
    rangesOverlap a b = rangesOverlap b a := by
  unfold rangesOverlap
  rw [Bool.and_comm]

theorem fitsRegion_spec (r : MemRegion) (t : TensorReq) (h : fitsRegion r t = true) :
    t.bytes ≤ r.capacity ∧ ∀ p ∈ r.packed, rangesOverlap p t = false := by
  unfold fitsRegion at h
  simp only [Bool.and_eq_true, decide_eq_true_eq, List.all_eq_true,
    Bool.not_eq_true'] at h
  exact h

theorem placeTensor_invariant (regions : List MemRegion) (t : TensorReq)
    (hinv : ∀ r ∈ regions,
      r.packed.Pairwise (fun a b => rangesOverlap a b = false) ∧
      ∀ x ∈ r.packed, x.bytes ≤ r.capacity) :
    ∀ r ∈ placeTensor regions t,
      r.packed.Pairwise (fun a b => rangesOverlap a b = false) ∧
      ∀ x ∈ r.packed, x.bytes ≤ r.capacity := by
  induction regions with
  | nil =>
    intro r hr
    simp only [placeTensor, List.mem_singleton] at hr
    subst hr
    refine ⟨List.pairwise_singleton _ _, ?_⟩
    intro x hx
    simp only [List.mem_singleton] at hx
    subst hx
    exact le_refl _
  | cons r0 rest ih =>
    intro r hr
    simp only [placeTensor] at hr
    by_cases hf : fitsRegion r0 t = true
    · rw [if_pos hf] at hr
      obtain ⟨hcap, hdisj⟩ := fitsRegion_spec r0 t hf
      have h0 := hinv r0 (List.mem_cons_self r0 rest)
      rcases List.mem_cons.mp hr with rfl | hr2
      · constructor
        · exact List.Pairwise.cons
            (fun b hb => by rw [rangesOverlap_comm]; exact hdisj b hb) h0.1
        · intro x hx
          rcases List.mem_cons.mp hx with rfl | hx2
          · exact hcap
          · exact h0.2 x hx2
      · exact hinv r (List.mem_cons_of_mem r0 hr2)
    · rw [if_neg hf] at hr
      rcases List.mem_cons.mp hr with rfl | hr2
      · exact hinv r (List.mem_cons_self r rest)
      · exact ih (fun x hx => hinv x (List.mem_cons_of_mem r0 hx)) r hr2

theorem foldl_place_invariant (reqs : List TensorReq) (regions : List MemRegion)
    (hinv : ∀ r ∈ regions,
      r.packed.Pairwise (fun a b => rangesOverlap a b = false) ∧
      ∀ x ∈ r.packed, x.bytes ≤ r.capacity) :
    ∀ r ∈ reqs.foldl placeTensor regions,
      r.packed.Pairwise (fun a b => rangesOverlap a b = false) ∧
      ∀ x ∈ r.packed, x.bytes ≤ r.capacity := by
  induction reqs generalizing regions with
  | nil => exact hinv
  | cons t ts ih =>
    intro r hr
    exact ih (placeTensor regions t) (placeTensor_invariant regions t hinv) r hr

/-- Claim C3: any two distinct handles that `allocateTensors` packs into the
same storage region have disjoint access-order ranges, and every packed
handle's byte footprint fits the region's capacity. -/
theorem C3_packing_no_alias (reqs : List TensorReq) (r : MemRegion)
    (hr : r ∈ allocateTensors reqs) :
    (∀ a, a ∈ r.packed → ∀ b, b ∈ r.packed → a ≠ b →
      rangesOverlap a b = false) ∧
    (∀ a, a ∈ r.packed → a.bytes ≤ r.capacity) := by
  have h := foldl_place_invariant (sortReqs reqs) []
    (by intro x hx; exact absurd hx (List.not_mem_nil x)) r hr
  refine ⟨?_, h.2⟩
  intro a ha b hb hab
  exact List.Pairwise.forall
    (fun x y hxy => by rw [rangesOverlap_comm]; exact hxy) h.1 ha hb hab

/-- Claim C3 witness. -/
theorem C3_packing_no_alias_witness :
    rangesOverlap ⟨1, 2, 3, 4⟩ ⟨0, 0, 1, 4⟩ = false ∧
    (⟨1, 2, 3, 4⟩ : TensorReq).bytes ≤
      (⟨4, [⟨1, 2, 3, 4⟩, ⟨0, 0, 1, 4⟩]⟩ : MemRegion).capacity :=
  ⟨(C3_packing_no_alias [⟨0, 0, 1, 4⟩, ⟨1, 2, 3, 4⟩]
      ⟨4, [⟨1, 2, 3, 4⟩, ⟨0, 0, 1, 4⟩]⟩ (by decide)).1
      ⟨1, 2, 3, 4⟩ (by decide) ⟨0, 0, 1, 4⟩ (by decide) (by decide),
   (C3_packing_no_alias [⟨0, 0, 1, 4⟩, ⟨1, 2, 3, 4⟩]
      ⟨4, [⟨1, 2, 3, 4⟩, ⟨0, 0, 1, 4⟩]⟩ (by decide)).2
      ⟨1, 2, 3, 4⟩ (by decide)⟩

/-- Claim C6: `canExecuteInPlace` returns an in-place-eligible mode only for a
pure elementwise/shape-preserving node with exactly one output consumer; a
node with two or more consumers is ineligible, and each of its downstream
consumers is itself ineligible, hence keeps independent output storage in
`inPlaceOptimize`. -/
theorem C6_in_place_eligibility (g : PlanGraph) (n : PlanNode) :
    (canExecuteInPlace g n ≠ InPlace.NONE →
      n.elementwise = true ∧ (consumersOf g n.name).length = 1) ∧
    (2 ≤ (consumersOf g n.name).length →
      canExecuteInPlace g n = InPlace.NONE ∧
      (∀ m, m ∈ g.nodes → n.name ∈ m.inputs →
        canExecuteInPlace g m = InPlace.NONE ∧
        (m.name, false) ∈ inPlaceOptimize g)) := by
  constructor
  · intro hne
    unfold canExecuteInPlace at hne
    by_cases hc : (n.elementwise && ((consumersOf g n.name).length == 1) &&
        n.inputs.all fun i => (consumersOf g i).length == 1) = true
    · simp only [Bool.and_eq_true, beq_iff_eq] at hc
      exact ⟨hc.1.1, hc.1.2⟩
    · rw [if_neg hc] at hne
      exact absurd rfl hne
  · intro h2
    have hlen : ((consumersOf g n.name).length == 1) = false := by
      rw [beq_eq_false_iff_ne]
      omega
    have hmain : canExecuteInPlace g n = InPlace.NONE := by
      unfold canExecuteInPlace
      have hc : (n.elementwise && ((consumersOf g n.name).length == 1) &&
          n.inputs.all fun i => (consumersOf g i).length == 1) = false := by
        simp [hlen]
      rw [hc]
      simp
    refine ⟨hmain, ?_⟩
    intro m hm hmi
    have hallm : (m.inputs.all fun i => (consumersOf g i).length == 1) = false := by
      rw [List.all_eq_false]
      exact ⟨n.name, hmi, by simp [hlen]⟩
    have hmnone : canExecuteInPlace g m = InPlace.NONE := by
      unfold canExecuteInPlace
      have hc : (m.elementwise && ((consumersOf g m.name).length == 1) &&
          m.inputs.all fun i => (consumersOf g i).length == 1) = false := by
        simp [hallm]
      rw [hc]
      simp
    refine ⟨hmnone, ?_⟩
    unfold inPlaceOptimize
    apply List.mem_map.mpr
    refine ⟨m, hm, ?_⟩
    rw [hmnone]
    simp

/-- Claim C6 witness: node 0 is consumed by nodes 1 and 2. -/
theorem C6_in_place_eligibility_witness :
    canExecuteInPlace ⟨[⟨0, [], true, false⟩, ⟨1, [0], true, false⟩,
        ⟨2, [0], true, false⟩]⟩ ⟨0, [], true, false⟩ = InPlace.NONE ∧
    canExecuteInPlace ⟨[⟨0, [], true, false⟩, ⟨1, [0], true, false⟩,
        ⟨2, [0], true, false⟩]⟩ ⟨1, [0], true, false⟩ = InPlace.NONE ∧
    ((1 : Nat), false) ∈ inPlaceOptimize ⟨[⟨0, [], true, false⟩,
        ⟨1, [0], true, false⟩, ⟨2, [0], true, false⟩]⟩ :=
  ⟨((C6_in_place_eligibility _ ⟨0, [], true, false⟩).2 (by decide)).1,
   (((C6_in_place_eligibility _ ⟨0, [], true, false⟩).2 (by decide)).2
      ⟨1, [0], true, false⟩ (by decide) (by decide)).1,
   (((C6_in_place_eligibility _ ⟨0, [], true, false⟩).2 (by decide)).2
      ⟨1, [0], true, false⟩ (by decide) (by decide)).2⟩

/-- Claim C8 counterexample: a `ReleaseContext` call on the initial state (no
context acquired yet) does not decrement the reference count, so "each
ReleaseContext call decrements it" is false as stated. -/
theorem C8_release_counterexample :
    ¬ ((ContextManager.ReleaseContext initialCMState).refCount + 1 =
        initialCMState.refCount) := by decide

/-- Claim C8 (amended): the context is acquired lazily; every successful
`GetContext` call strictly increases the context reference count (by exactly
one when the context already exists); a `ReleaseContext` call while a context
is held decrements the count, and is a no-op when no context is held; when the
context cannot be created the failure surfaces as `DeviceUnavailableError`. -/
theorem C8_context_refcounting :
    (initialCMState.hasContext = false) ∧
    (∀ avail s, (s.hasContext = false → s.refCount = 0) →
      (ContextManager.GetContext avail s).2 = true →
      s.refCount < ((ContextManager.GetContext avail s).1).refCount) ∧
    (∀ avail s, s.hasContext = true →
      ((ContextManager.GetContext avail s).1).refCount = s.refCount + 1) ∧
    (∀ s, s.hasContext = false →
      ((ContextManager.GetContext true s).1).hasContext = true ∧
      (ContextManager.GetContext true s).2 = true) ∧
    (∀ s, s.hasContext = true → 1 ≤ s.refCount →
      (ContextManager.ReleaseContext s).refCount + 1 = s.refCount) ∧
    (∀ s, s.hasContext = false → ContextManager.ReleaseContext s = s) ∧
    (∀ s, s.hasContext = false →
      acquireComputeContext false s =
        Except.error DeviceError.DeviceUnavailableError) := by
  refine ⟨rfl, ?_, ?_, ?_, ?_, ?_, ?_⟩
  · intro avail s hwf
    unfold ContextManager.GetContext CreateDefaultOpenCLHandles clRetainContext
    cases hs : s.hasContext
    · cases avail
      · simp [hs]
      · simp [hs, hwf hs]
    · cases avail <;> simp [hs]
  · intro avail s hs
    unfold ContextManager.GetContext clRetainContext
    simp [hs]
  · intro s hs
    unfold ContextManager.GetContext CreateDefaultOpenCLHandles clRetainContext
    simp [hs]
  · intro s hs hge
    unfold ContextManager.ReleaseContext clReleaseContext
    simp [hs]
    omega
  · intro s hs
    unfold ContextManager.ReleaseContext
    simp [hs]
  · intro s hs
    unfold acquireComputeContext ContextManager.GetContext
      CreateDefaultOpenCLHandles
    simp [hs]

theorem foldApply_eq_count (w : MWeight) (l : List Nat) (c : Nat) :
    l.foldl (fun acc o => applyGradientsOnLastAccess w o acc) c =
      c + l.count w.lastAccess := by
  induction l generalizing c with
  | nil => simp
  | cons x xs ih =>
    rw [List.foldl_cons, ih, List.count_cons]
    unfold applyGradientsOnLastAccess
    by_cases hx : x = w.lastAccess
    · simp only [hx, if_pos rfl, beq_self_eq_true, if_true]
      omega
    · simp only [if_neg hx, beq_iff_eq, if_neg (Ne.symm hx)]
      omega

theorem lastAccess_not_mem_take (l : List Nat) (hs : l.Sorted (· < ·))
    (hne : l ≠ []) (k : Nat) (hk : k < l.length) :
    l.getLast hne ∉ l.take k := by
  intro hmem
  obtain ⟨i, hi, hgi⟩ := List.getElem_of_mem hmem
  have hil : i < l.length := lt_of_lt_of_le hi (by simp [List.length_take])
  have hik : i < k := lt_of_lt_of_le hi (by simp [List.length_take])
  rw [List.getElem_take] at hgi
  have hlast : l.getLast hne = l[l.length - 1] := List.getLast_eq_getElem l hne
  have hne2 : 0 < l.length := List.length_pos.mpr hne
  have hlt : l.get ⟨i, hil⟩ < l.get ⟨l.length - 1, by omega⟩ :=
    hs.rel_get_of_lt (by simp only [Fin.mk_lt_mk]; omega)
  simp only [List.get_eq_getElem] at hlt
  rw [hgi, hlast] at hlt
  exact lt_irrefl _ hlt

/-- Claim C4: for a weight with M total accesses, invoking
`applyGradientsOnLastAccess` at each access applies the gradient update
exactly once, at the Mth (temporally last) access; every invocation at an
earlier access is a no-op. -/
theorem C4_apply_on_last_access (w : MWeight)
    (hs : w.accessOrders.Sorted (· < ·)) (hne : w.accessOrders ≠ [])
    (hla : w.lastAccess = w.accessOrders.getLast hne) :
    (∀ k, k < w.accessOrders.length → runGradientAccesses w k = 0) ∧
    runAllGradientAccesses w = 1 := by
  constructor
  · intro k hk
    unfold runGradientAccesses
    rw [foldApply_eq_count, hla]
    have := lastAccess_not_mem_take w.accessOrders hs hne k hk
    rw [List.count_eq_zero.mpr this]
  · unfold runAllGradientAccesses runGradientAccesses
    rw [List.take_length, foldApply_eq_count, hla]
    have hmem : w.accessOrders.getLast hne ∈ w.accessOrders := List.getLast_mem hne
    rw [List.count_eq_one_of_mem hs.nodup hmem]

/-- Claim C4 witness. -/
theorem C4_apply_on_last_access_witness :
    runGradientAccesses ⟨9, [2, 5, 9]⟩ 2 = 0 ∧
    runAllGradientAccesses ⟨9, [2, 5, 9]⟩ = 1 :=
  ⟨(C4_apply_on_last_access ⟨9, [2, 5, 9]⟩ (by decide)
      (by decide) (by decide)).1 2 (by decide),
   (C4_apply_on_last_access ⟨9, [2, 5, 9]⟩ (by decide)
      (by decide) (by decide)).2⟩

/-- Claim C8 witness. -/
theorem C8_context_refcounting_witness :
    ((ContextManager.GetContext true (⟨true, 2⟩ : CMState)).1).refCount = 2 + 1 ∧
    (ContextManager.ReleaseContext (⟨true, 3⟩ : CMState)).refCount + 1 = 3 ∧
    acquireComputeContext false initialCMState =
      Except.error DeviceError.DeviceUnavailableError :=
  ⟨C8_context_refcounting.2.2.1 true ⟨true, 2⟩ rfl,
   C8_context_refcounting.2.2.2.2.1 ⟨true, 3⟩ rfl (by decide),
   C8_context_refcounting.2.2.2.2.2.2 initialCMState rfl⟩

end NNTrainer
